import Mathlib

/-!
Shallow embedding of the wave-function-collapse repository
(`src/enums.rs`, `src/rules.rs`, `src/state.rs`), together with theorems
settling the specification claims about it.

Conventions of the embedding:
* Rust `HashSet<Tile>` is modelled as `Finset Tile` (ordering of a hash set
  is irrelevant to every claim; insertion becomes `insert`, emptiness
  becomes `= ∅`, `len` becomes `Finset.card`).
* Rust `Vec<Vec<HashSet<Tile>>>` is modelled as `List (List (Finset Tile))`;
  indexing `inner[x][y]` becomes `(inner.getD x []).getD y ∅`.  The Rust
  code panics out of bounds; the `getD` default is never reached in any
  theorem because well-formedness hypotheses keep all indices in bounds.
* A bmp `Image` is modelled as a rectangle of `Tile`s: the `Pixel ↔ Tile`
  codec of `enums.rs` is a bijection on the values that actually occur
  (Red/Green/Blue), so a pixel is represented by the tile it decodes to.
* Randomness (`rand::thread_rng`) is made explicit: `SliceRandom::choose`
  on a slice of length `n` returns the element at some index `< n` (none
  iff the slice is empty); the index is passed in as a parameter `r` and
  read as `r % n`.
-/

/-- `Tile` from `src/enums.rs`: the three-colour label alphabet. -/
inductive Tile : Type
  | Red : Tile
  | Green : Tile
  | Blue : Tile
deriving DecidableEq, Repr

/-- The alphabet is finite with exactly the three declared labels. -/
instance : Fintype Tile :=
  ⟨⟨{Tile.Red, Tile.Green, Tile.Blue}, by decide⟩, by intro x; cases x <;> decide⟩

/-- `Direction` from `src/enums.rs`. -/
inductive Direction : Type
  | Up : Direction
  | Down : Direction
  | Left : Direction
  | Right : Direction
deriving DecidableEq, Repr

/-- `Direction::offset` from `src/enums.rs`: the `(dx, dy)` coordinate
offset of each direction. -/
def Direction.offset : Direction → Int × Int
  | Direction.Up => (0, -1)
  | Direction.Down => (0, 1)
  | Direction.Left => (-1, 0)
  | Direction.Right => (1, 0)

/-- `Rule` from `src/rules.rs`: an adjacency fact
`(curr_tile, adj_tile, direction)`. -/
structure Rule : Type where
  curr_tile : Tile
  adj_tile : Tile
  direction : Direction
deriving DecidableEq, Repr

/-- `Rule::new`. -/
def Rule.new (curr_tile adj_tile : Tile) (direction : Direction) : Rule :=
  ⟨curr_tile, adj_tile, direction⟩

/-- `PossibleVals` from `src/state.rs`: the wave, a nested container of
per-cell possibility sets, indexed `inner[x][y]`. -/
structure PossibleVals : Type where
  inner : List (List (Finset Tile))
deriving DecidableEq

/-- `PossibleVals::get`: `self.inner[x][y].clone()`. -/
def PossibleVals.get (pv : PossibleVals) (x y : Nat) : Finset Tile :=
  (pv.inner.getD x []).getD y ∅

/-- `PossibleVals::set`: `self.inner[x][y] = value`. -/
def PossibleVals.set (pv : PossibleVals) (x y : Nat) (value : Finset Tile) :
    PossibleVals :=
  ⟨pv.inner.set x ((pv.inner.getD x []).set y value)⟩

/-- `PossibleVals::size`: `None` when the outer vector is empty, otherwise
`(inner.len(), inner[0].len())`. -/
def PossibleVals.size (pv : PossibleVals) : Option (Nat × Nat) :=
  if pv.inner.length = 0 then none
  else some (pv.inner.length, (pv.inner.getD 0 []).length)

/-- `State` from `src/state.rs`. -/
structure State : Type where
  possible_vals : PossibleVals
  width : Nat
  height : Nat
  curr_file_index : Nat
deriving DecidableEq

/-- `State::new` from `src/state.rs`, verbatim: the wave is built as
`vec![vec![all_tiles_types.clone(); w]; h]`, i.e. `h` outer entries each
holding `w` copies of the alphabet (note the outer dimension is `h`). -/
def State.new (w h : Nat) (all_tiles_types : Finset Tile) : State :=
  { possible_vals := ⟨List.replicate h (List.replicate w all_tiles_types)⟩
    curr_file_index := 0
    width := w
    height := h }

/-- `State::get`: `self.possible_vals.inner[x][y].clone()`. -/
def State.get (s : State) (x y : Nat) : Finset Tile :=
  s.possible_vals.get x y

/-- `State::get_total_entropy`: the number of elements enumerated by
`inner.iter().flatten().flatten().count()`, i.e. the sum of the sizes of
all possibility sets. -/
def State.get_total_entropy (s : State) : Nat :=
  (s.possible_vals.inner.map (fun row => (row.map Finset.card).sum)).sum

/-- `State::with_possibilities`: a clone of the state with the possibility
grid replaced. -/
def State.with_possibilities (s : State) (possible_vals : PossibleVals) :
    State :=
  { s with possible_vals := possible_vals }

/-- `contains_invalid_tiles` from `src/state.rs`: true iff some cell's
possibility set is empty. -/
def contains_invalid_tiles (possible_vals : PossibleVals) : Bool :=
  possible_vals.inner.any (fun row => row.any (fun tile => tile = ∅))

/-- The grid-shape invariant assumed by every consumer of a `State`
(`apply_rules`, `get_image_from_possible_vals`, … all index
`inner[x][y]` with `x < width`, `y < height`): the outer vector has
`width` entries and every row has `height` entries. -/
def State.WF (s : State) : Prop :=
  s.possible_vals.inner.length = s.width ∧
    ∀ row ∈ s.possible_vals.inner, row.length = s.height

instance (s : State) : Decidable s.WF := by
  unfold State.WF; infer_instance

/-- `get_possibilities_adjacent_pixels` from `src/rules.rs`: the current
cell's set and the four neighbours' sets (in `curr, up, down, left, right`
order), `none` for a neighbour that is out of bounds; all five are `none`
when the grid has no rows (`size()` is `None`). -/
def get_possibilities_adjacent_pixels (possible_vals : PossibleVals)
    (x y : Nat) :
    Option (Finset Tile) × Option (Finset Tile) × Option (Finset Tile) ×
      Option (Finset Tile) × Option (Finset Tile) :=
  match possible_vals.size with
  | none => (none, none, none, none, none)
  | some (w, h) =>
    let curr := possible_vals.get x y
    let up := if y > 0 then some (possible_vals.get x (y - 1)) else none
    let down := if y < h - 1 then some (possible_vals.get x (y + 1)) else none
    let left := if x > 0 then some (possible_vals.get (x - 1) y) else none
    let right := if x < w - 1 then some (possible_vals.get (x + 1) y) else none
    (some curr, up, down, left, right)

/-- The body of the per-rule loop of `apply_rules` (`src/rules.rs`,
lines 83-108): a rule makes the candidate possibility invalid when its
`curr_tile` matches the candidate and its direction points at an existing
neighbour whose set lacks the rule's `adj_tile`. -/
def rule_violates (rule : Rule) (possibility : Tile)
    (up down left right : Option (Finset Tile)) : Bool :=
  if rule.curr_tile ≠ possibility then false
  else if rule.direction = Direction.Up ∧ up.isSome then
    decide (rule.adj_tile ∉ up.getD ∅)
  else if rule.direction = Direction.Down ∧ down.isSome then
    decide (rule.adj_tile ∉ down.getD ∅)
  else if rule.direction = Direction.Left ∧ left.isSome then
    decide (rule.adj_tile ∉ left.getD ∅)
  else if rule.direction = Direction.Right ∧ right.isSome then
    decide (rule.adj_tile ∉ right.getD ∅)
  else false

/-- The new possibility set computed by `apply_rules` for the cell `(x, y)`
(the `new_tile_possibilities` accumulation): the possibilities of the input
wave that no rule invalidates.  Inserting each surviving possibility into a
fresh set is the same as filtering the cell's set. -/
def apply_rules_cell (curr_state : State) (rules : Finset Rule)
    (x y : Nat) : Finset Tile :=
  match get_possibilities_adjacent_pixels curr_state.possible_vals x y with
  | (_, up, down, left, right) =>
    (curr_state.get x y).filter
      (fun possibility =>
        ∀ rule ∈ rules, rule_violates rule possibility up down left right = false)

/-- The double `for` loop of `apply_rules` (`src/rules.rs`, lines 71-115):
starting from a clone of the input grid, for every `x < w`, `y < h` whose
cell has size ≠ 1, overwrite the cell with its filtered set.  Every read
(`possibilities`, the neighbours) is from the immutable `curr_state`; only
`new_possibilities` is written. -/
def apply_rules_grid (curr_state : State) (rules : Finset Rule) :
    PossibleVals :=
  (List.range curr_state.width).foldl
    (fun new_possibilities x =>
      (List.range curr_state.height).foldl
        (fun np y =>
          if (curr_state.get x y).card = 1 then np
          else np.set x y (apply_rules_cell curr_state rules x y))
        new_possibilities)
    curr_state.possible_vals

/-- `apply_rules` from `src/rules.rs`: compute the filtered grid, return
`None` when it contains an empty cell, otherwise a new `State` carrying
it. -/
def apply_rules (curr_state : State) (rules : Finset Rule) : Option State :=
  let new_possibilities := apply_rules_grid curr_state rules
  if contains_invalid_tiles new_possibilities then none
  else some (curr_state.with_possibilities new_possibilities)

/-- A bmp `Image`, modelled as a rectangle of labels: `get_pixel x y` for
`x < width`, `y < height`.  Pixels are represented by the tiles they decode
to (the `Pixel ↔ Tile` codec of `src/enums.rs` is injective on the three
colours used). -/
structure Image : Type where
  width : Nat
  height : Nat
  data : List (List Tile)
deriving DecidableEq

/-- `Image::get_pixel(x, y)` (column `x`, row `y`). -/
def Image.get_pixel (img : Image) (x y : Nat) : Tile :=
  (img.data.getD x []).getD y Tile.Red

/-- `Image::coordinates()`: every `(x, y)` with `x < width`, `y < height`
(iteration order is irrelevant to the resulting rule set). -/
def Image.coordinates (img : Image) : List (Nat × Nat) :=
  (List.range img.width).foldr
    (fun x acc => ((List.range img.height).map (fun y => (x, y))) ++ acc) []

/-- `get_image_adjacent_pixels` from `src/rules.rs`: the four neighbouring
pixels of `(x, y)` in `up, down, left, right` order, `none` when out of
bounds. -/
def get_image_adjacent_pixels (img : Image) (x y : Nat) :
    Option Tile × Option Tile × Option Tile × Option Tile :=
  let w := img.width
  let h := img.height
  let up := if y > 0 then some (img.get_pixel x (y - 1)) else none
  let down := if y < h - 1 then some (img.get_pixel x (y + 1)) else none
  let left := if x > 0 then some (img.get_pixel (x - 1) y) else none
  let right := if x < w - 1 then some (img.get_pixel (x + 1) y) else none
  (up, down, left, right)

/-- The rules inserted by one iteration of the `extract_rules` loop for the
cell `(x, y)`: for each in-bounds neighbour, `Rule::new(neighbour_pixel,
curr_tile, direction)` — note the neighbour's pixel is the rule's
`curr_tile` and the cell's own pixel its `adj_tile`. -/
def extract_rules_step (img : Image) (x y : Nat) (rules : Finset Rule) :
    Finset Rule :=
  let curr_tile := img.get_pixel x y
  match get_image_adjacent_pixels img x y with
  | (up, down, left, right) =>
    let rules := match up with
      | some u => insert (Rule.new u curr_tile Direction.Up) rules
      | none => rules
    let rules := match down with
      | some d => insert (Rule.new d curr_tile Direction.Down) rules
      | none => rules
    let rules := match left with
      | some l => insert (Rule.new l curr_tile Direction.Left) rules
      | none => rules
    let rules := match right with
      | some r => insert (Rule.new r curr_tile Direction.Right) rules
      | none => rules
    rules

/-- `extract_rules` from `src/rules.rs`: fold the per-cell insertions over
every coordinate of the image, starting from the empty set. -/
def extract_rules (img : Image) : Finset Rule :=
  img.coordinates.foldl (fun rules c => extract_rules_step img c.1 c.2 rules) ∅

/-- `iter().next().unwrap()` on a `HashSet<Tile>`: some element of the set
(for the singleton sets the decoder reads, necessarily the unique one; the
hash-iteration order is irrelevant there, so a fixed scan order stands in
for it). -/
def hash_set_first (s : Finset Tile) : Tile :=
  if Tile.Red ∈ s then Tile.Red
  else if Tile.Green ∈ s then Tile.Green
  else Tile.Blue

/-- `get_image_from_possible_vals` from `src/state.rs`: the decoder.  The
loop early-returns `None` the moment a cell has size ≠ 1, so it produces an
image iff every cell in the `width × height` range is a singleton, and then
each output pixel is that cell's single element. -/
def get_image_from_possible_vals (state : State) : Option Image :=
  let w := state.width
  let h := state.height
  if ∀ x < w, ∀ y < h, (state.get x y).card = 1 then
    some ⟨w, h,
      (List.range w).map (fun x =>
        (List.range h).map (fun y => hash_set_first (state.get x y)))⟩
  else none

/-- Initial value of `min_entropy` in `get_lowest_entropy_tile`:
`usize::MAX`. -/
def USIZE_MAX : Nat := 2 ^ 64 - 1

/-- The accumulation loop of `get_lowest_entropy_tile` (`src/state.rs`,
lines 196-216): scan every cell `(i, j)` with its set, skip cells of size
exactly 1, and keep the list of coordinates realising the minimum size seen
so far (cleared when a strictly smaller size appears, appended to on a
tie). -/
def get_lowest_entropy_acc (possible_vals : PossibleVals) :
    Nat × List (Nat × Nat) :=
  possible_vals.inner.enum.foldl
    (fun acc p =>
      p.2.enum.foldl
        (fun acc' q =>
          let entropy := q.2.card
          if entropy = 1 then acc'
          else if entropy < acc'.1 then (entropy, [(p.1, q.1)])
          else if entropy = acc'.1 then (acc'.1, acc'.2 ++ [(p.1, q.1)])
          else acc')
        acc)
    (USIZE_MAX, [])

/-- `get_lowest_entropy_tile` from `src/state.rs`:
`min_entropy_tiles.choose(rng)` — `none` iff the candidate list is empty,
otherwise the candidate at the random index `r % length`. -/
def get_lowest_entropy_tile (r : Nat) (possible_vals : PossibleVals) :
    Option (Nat × Nat) :=
  let min_entropy_tiles := (get_lowest_entropy_acc possible_vals).2
  min_entropy_tiles.get? (r % min_entropy_tiles.length)

/-- The alphabet accumulation at the top of `generate_image`
(`src/state.rs`, lines 260-264): every `curr_tile` and every `adj_tile`
appearing in the rule set. -/
def all_tiles_types (rules : Finset Rule) : Finset Tile :=
  rules.image Rule.curr_tile ∪ rules.image Rule.adj_tile

/-- The propagation loop of `generate_image` (`src/state.rs`, lines
313-316), with explicit fuel for the number of remaining iterations:

    while old_state.get_total_entropy() != state.get_total_entropy() {
        old_state = state.clone();
        apply_rules(&state, rules);
    }

The body evaluates `apply_rules` and discards its result (`state` is never
reassigned), so the guard can only be true on the first test; the fuel is
irrelevant beyond 1 (proved below). -/
def generate_image_propagation_loop :
    Nat → State → State → Finset Rule → State
  | 0, _, state, _ => state
  | fuel + 1, old_state, state, rules =>
    if old_state.get_total_entropy ≠ state.get_total_entropy then
      let _ := apply_rules state rules
      generate_image_propagation_loop fuel state state rules
    else state

/-- The four directions form a finite type. -/
instance : Fintype Direction :=
  ⟨⟨{Direction.Up, Direction.Down, Direction.Left, Direction.Right}, by decide⟩,
    by intro x; cases x <;> decide⟩

/-- The coordinate of the direction-`d` neighbour of `(x, y)`, via
`Direction::offset`. -/
def neighbor_coord (x y : Nat) (d : Direction) : Int × Int :=
  ((x : Int) + d.offset.1, (y : Int) + d.offset.2)

/-- The direction-`d` neighbour of `(x, y)` lies inside a `w × h` grid. -/
def neighbor_in_bounds (w h x y : Nat) (d : Direction) : Prop :=
  0 ≤ (neighbor_coord x y d).1 ∧ (neighbor_coord x y d).1 < (w : Int) ∧
    0 ≤ (neighbor_coord x y d).2 ∧ (neighbor_coord x y d).2 < (h : Int)

instance (w h x y : Nat) (d : Direction) :
    Decidable (neighbor_in_bounds w h x y d) := by
  unfold neighbor_in_bounds; infer_instance

/-- The possibility set of the direction-`d` neighbour of `(x, y)`. -/
def neighbor_get (pv : PossibleVals) (x y : Nat) (d : Direction) :
    Finset Tile :=
  pv.get (neighbor_coord x y d).1.toNat (neighbor_coord x y d).2.toNat

/-- The pixel of the direction-`d` neighbour of `(x, y)` in an image. -/
def image_neighbor_pixel (img : Image) (x y : Nat) (d : Direction) : Tile :=
  img.get_pixel (neighbor_coord x y d).1.toNat (neighbor_coord x y d).2.toNat

/-- The rule set described by the words of the specification (§4.1) and of
claim C3: for every cell `(x, y)` and every direction `d` whose neighbour
`(x+dx, y+dy)` is in bounds, the rule whose *subject* is `label(x, y)`,
whose neighbour label is the label of the cell at `(x+dx, y+dy)`, and whose
direction is `d`.  Stated for comparison with `extract_rules`. -/
def extract_rules_claimed (img : Image) : Finset Rule :=
  (Finset.range img.width).biUnion (fun x =>
    (Finset.range img.height).biUnion (fun y =>
      Finset.univ.biUnion (fun d : Direction =>
        if neighbor_in_bounds img.width img.height x y d then
          {Rule.new (img.get_pixel x y) (image_neighbor_pixel img x y d) d}
        else ∅)))

/-- The shape of a wave: `w` columns each holding `h` cells. -/
def PossibleVals.Shaped (pv : PossibleVals) (w h : Nat) : Prop :=
  pv.inner.length = w ∧ ∀ row ∈ pv.inner, row.length = h

/-- One full propagator application viewed as a wave transformer: the new
state carrying the grid computed by `apply_rules` (which returns exactly
this state under `Some`, and `None` instead when the grid has an empty
cell). -/
def propagate_pass (rules : Finset Rule) (s : State) : State :=
  s.with_possibilities (apply_rules_grid s rules)

/-- A 1×1 wave whose single cell is `{Red, Green}`. -/
def ex_state_1x1 : State := ⟨⟨[[{Tile.Red, Tile.Green}]]⟩, 1, 1, 0⟩

/-- The `rules_red_green_ud` fixture of the repository's tests:
Red↕Red and Green↕Green. -/
def ex_rules_ud : Finset Rule :=
  {⟨Tile.Red, Tile.Red, Direction.Down⟩, ⟨Tile.Red, Tile.Red, Direction.Up⟩,
    ⟨Tile.Green, Tile.Green, Direction.Down⟩,
    ⟨Tile.Green, Tile.Green, Direction.Up⟩}

/-- A 2×2 wave right after a collapse commit: cell `(0,0)` is `{Red}`, the
other three cells are `{Red, Green}`. -/
def ex_state_2x2_collapsed : State :=
  ⟨⟨[[{Tile.Red}, {Tile.Red, Tile.Green}],
     [{Tile.Red, Tile.Green}, {Tile.Red, Tile.Green}]]⟩, 2, 2, 0⟩

/-- A 2×1 wave: cell `(0,0)` is `{Red, Green, Blue}`, cell `(1,0)` is
`{Red, Green}`. -/
def ex_state_2x1_chain : State :=
  ⟨⟨[[{Tile.Red, Tile.Green, Tile.Blue}], [{Tile.Red, Tile.Green}]]⟩, 2, 1, 0⟩

/-- A rule set under which `ex_state_2x1_chain` needs three propagation
passes to stabilise. -/
def ex_rules_chain : Finset Rule :=
  {⟨Tile.Blue, Tile.Blue, Direction.Right⟩,
    ⟨Tile.Green, Tile.Blue, Direction.Left⟩,
    ⟨Tile.Green, Tile.Green, Direction.Right⟩}

/-- The 2×2 sample of the repository's `test_extract_rules`: labels
`Red, Blue, Red, Red` in row-major order, i.e. `(0,0) = Red`,
`(1,0) = Blue`, `(0,1) = Red`, `(1,1) = Red`. -/
def sample_2x2 : Image :=
  ⟨2, 2, [[Tile.Red, Tile.Red], [Tile.Blue, Tile.Red]]⟩

/-- A 2×1 sample: `(0,0) = Red`, `(1,0) = Blue`. -/
def sample_2x1 : Image := ⟨2, 1, [[Tile.Red], [Tile.Blue]]⟩

/-- A 2×1 wave holding one collapsed cell and one empty (contradictory)
cell. -/
def ex_pv_with_empty : PossibleVals := ⟨[[{Tile.Red}], [(∅ : Finset Tile)]]⟩

/-- A fully collapsed 2×1 wave. -/
def ex_state_2x1_done : State :=
  ⟨⟨[[{Tile.Red}], [{Tile.Green}]]⟩, 2, 1, 0⟩

/-- The body of the cell scan of `get_lowest_entropy_tile`, on a single
enumerated cell (coordinate paired with its set): `match entropy.cmp(...)`
with the `Less` / `Equal` / `Greater` arms. -/
def lef_step (acc : Nat × List (Nat × Nat))
    (cq : (Nat × Nat) × Finset Tile) : Nat × List (Nat × Nat) :=
  let entropy := cq.2.card
  if entropy = 1 then acc
  else if entropy < acc.1 then (entropy, [cq.1])
  else if entropy = acc.1 then (acc.1, acc.2 ++ [cq.1])
  else acc

/-- All cells of the wave in scan order, as
`((outer index, inner index), set)` triples — the sequence the double
`enumerate` loop of `get_lowest_entropy_tile` visits. -/
def grid_cells (pv : PossibleVals) : List ((Nat × Nat) × Finset Tile) :=
  pv.inner.enum.foldr
    (fun p acc => (p.2.enum.map (fun q => ((p.1, q.1), q.2))) ++ acc) []

lemma State.wf_iff_shaped (s : State) :
    s.WF ↔ s.possible_vals.Shaped s.width s.height :=
  Iff.rfl

lemma PossibleVals.shaped_set {pv : PossibleVals} {w h : Nat}
    (hs : pv.Shaped w h) (x y : Nat) (v : Finset Tile) :
    (pv.set x y v).Shaped w h := by
  obtain ⟨hlen, hrow⟩ := hs
  refine ⟨by simpa [PossibleVals.set] using hlen, ?_⟩
  intro row hmem
  by_cases hx : x < pv.inner.length
  · rcases List.mem_or_eq_of_mem_set hmem with h1 | h2
    · exact hrow row h1
    · subst h2
      have : pv.inner.getD x [] = pv.inner[x] := List.getD_eq_getElem _ _ hx
      rw [List.length_set, this]
      exact hrow _ (List.getElem_mem hx)
  · have : (pv.set x y v).inner = pv.inner :=
      List.set_eq_of_length_le (Nat.le_of_not_lt hx)
    exact hrow row (this ▸ hmem)
lemma PossibleVals.get_eq_getElem {pv : PossibleVals} {w h x y : Nat}
    (hs : pv.Shaped w h) (hx : x < w) (hy : y < h) :
    ∃ hx' : x < pv.inner.length, ∃ hy' : y < pv.inner[x].length,
      pv.get x y = pv.inner[x][y] := by
  obtain ⟨hlen, hrow⟩ := hs
  have hx' : x < pv.inner.length := by omega
  have hy' : y < pv.inner[x].length := by
    rw [hrow _ (List.getElem_mem hx')]; exact hy
  exact ⟨hx', hy', by
    unfold PossibleVals.get
    rw [List.getD_eq_getElem _ _ hx', List.getD_eq_getElem _ _ hy']⟩

lemma PossibleVals.get_set {pv : PossibleVals} {w h x y : Nat}
    (hs : pv.Shaped w h) (hx : x < w) (hy : y < h) (v : Finset Tile)
    (a b : Nat) :
    (pv.set x y v).get a b = if a = x ∧ b = y then v else pv.get a b := by
  obtain ⟨hlen, hrow⟩ := hs
  have hx' : x < pv.inner.length := by omega
  have hy' : y < (pv.inner.getD x []).length := by
    rw [List.getD_eq_getElem _ _ hx', hrow _ (List.getElem_mem hx')]; exact hy
  unfold PossibleVals.get PossibleVals.set
  by_cases hax : a = x
  · subst hax
    rw [show (pv.inner.set a ((pv.inner.getD a []).set y v)).getD a [] =
        (pv.inner.getD a []).set y v from by
      rw [List.getD_eq_getElem?_getD, List.getElem?_set_eq_of_lt _ hx']; rfl]
    by_cases hby : b = y
    · subst hby
      simp only [true_and, if_pos rfl]
      rw [List.getD_eq_getElem?_getD, List.getElem?_set_eq_of_lt _ hy']; rfl
    · simp only [hby, and_false, if_false]
      rw [List.getD_eq_getElem?_getD, List.getElem?_set_ne (fun h => hby h.symm),
        ← List.getD_eq_getElem?_getD]
  · simp only [hax, false_and, if_false]
    rw [show (pv.inner.set x ((pv.inner.getD x []).set y v)).getD a [] =
        pv.inner.getD a [] from by
      rw [List.getD_eq_getElem?_getD, List.getElem?_set_ne (fun h => hax h.symm),
        ← List.getD_eq_getElem?_getD]]

lemma apply_rules_grid_inner_fold {s : State} {rules : Finset Rule}
    {w h : Nat} (hs : s.possible_vals.Shaped w h) (hw : s.width = w)
    (hh : s.height = h) (x : Nat) (hx : x < w) (ys : List Nat)
    (hys : ∀ b ∈ ys, b < h) :
    ∀ np : PossibleVals, np.Shaped w h →
      (ys.foldl
        (fun np' y =>
          if (s.get x y).card = 1 then np'
          else np'.set x y (apply_rules_cell s rules x y)) np).Shaped w h ∧
      ∀ a b, (ys.foldl
        (fun np' y =>
          if (s.get x y).card = 1 then np'
          else np'.set x y (apply_rules_cell s rules x y)) np).get a b =
        if a = x ∧ b ∈ ys ∧ (s.get x b).card ≠ 1 then
          apply_rules_cell s rules a b
        else np.get a b := by
  induction ys with
  | nil => intro np hnp; simp [hnp]
  | cons y ys ih =>
    intro np hnp
    have hy : y < h := hys y (List.mem_cons_self y ys)
    have hys' : ∀ b ∈ ys, b < h := fun b hb => hys b (List.mem_cons_of_mem _ hb)
    set G : PossibleVals := if (s.get x y).card = 1 then np
      else np.set x y (apply_rules_cell s rules x y) with hG
    have hGs : G.Shaped w h := by
      rw [hG]; split
      · exact hnp
      · exact PossibleVals.shaped_set hnp x y _
    have hGget : ∀ a b, G.get a b =
        if a = x ∧ b = y ∧ (s.get x y).card ≠ 1 then
          apply_rules_cell s rules a b
        else np.get a b := by
      intro a b
      rw [hG]; split
      · rename_i hcard
        by_cases hc : a = x ∧ b = y ∧ (s.get x y).card ≠ 1
        · exact absurd hcard hc.2.2
        · rw [if_neg hc]
      · rename_i hcard
        rw [PossibleVals.get_set hnp hx hy]
        by_cases hc : a = x ∧ b = y
        · obtain ⟨hc1, hc2⟩ := hc
          subst hc1; subst hc2
          rw [if_pos ⟨rfl, rfl⟩, if_pos ⟨rfl, rfl, hcard⟩]
        · rw [if_neg hc, if_neg (fun hc' => hc ⟨hc'.1, hc'.2.1⟩)]
    obtain ⟨h1, h2⟩ := ih hys' G hGs
    refine ⟨by simpa [List.foldl_cons, ← hG] using h1, ?_⟩
    intro a b
    rw [List.foldl_cons, ← hG, h2 a b, hGget a b]
    by_cases hax : a = x
    · subst hax
      by_cases hby : b = y
      · subst hby
        by_cases hcb : (s.get a b).card = 1 <;> simp [hcb]
      · by_cases hbys : b ∈ ys
        · by_cases hcb : (s.get a b).card = 1 <;> simp [hcb, hbys, hby]
        · simp [hbys, hby]
    · simp [hax]

lemma apply_rules_grid_get {s : State} {rules : Finset Rule} {w h : Nat}
    (hs : s.possible_vals.Shaped w h) (hw : s.width = w) (hh : s.height = h) :
    (apply_rules_grid s rules).Shaped w h ∧
      ∀ a b, (apply_rules_grid s rules).get a b =
        if a < w ∧ b < h ∧ (s.get a b).card ≠ 1 then
          apply_rules_cell s rules a b
        else s.possible_vals.get a b := by
  unfold apply_rules_grid
  rw [hw, hh]
  have main : ∀ xs : List Nat, (∀ a ∈ xs, a < w) →
      ∀ np : PossibleVals, np.Shaped w h →
        ((xs.foldl
          (fun new_possibilities x =>
            (List.range h).foldl
              (fun np' y =>
                if (s.get x y).card = 1 then np'
                else np'.set x y (apply_rules_cell s rules x y))
              new_possibilities) np).Shaped w h ∧
        ∀ a b, (xs.foldl
          (fun new_possibilities x =>
            (List.range h).foldl
              (fun np' y =>
                if (s.get x y).card = 1 then np'
                else np'.set x y (apply_rules_cell s rules x y))
              new_possibilities) np).get a b =
          if a ∈ xs ∧ b < h ∧ (s.get a b).card ≠ 1 then
            apply_rules_cell s rules a b
          else np.get a b) := by
    intro xs
    induction xs with
    | nil => intro _ np hnp; simp [hnp]
    | cons x xs ih =>
      intro hxs np hnp
      have hx : x < w := hxs x (List.mem_cons_self x xs)
      have hxs' : ∀ a ∈ xs, a < w := fun a ha => hxs a (List.mem_cons_of_mem _ ha)
      obtain ⟨hG1, hG2⟩ := apply_rules_grid_inner_fold hs hw hh x hx
        (List.range h) (fun b hb => List.mem_range.mp hb) np hnp
      obtain ⟨h1, h2⟩ := ih hxs' _ hG1
      refine ⟨by simpa [List.foldl_cons] using h1, ?_⟩
      intro a b
      rw [List.foldl_cons, h2 a b, hG2 a b]
      by_cases hab : a = x
      · subst hab
        by_cases haxs : a ∈ xs
        · by_cases hbh : b < h
          · by_cases hcb : (s.get a b).card = 1 <;>
              simp [haxs, hbh, hcb, List.mem_range]
          · simp [hbh]
        · by_cases hbh : b < h
          · by_cases hcb : (s.get a b).card = 1 <;>
              simp [haxs, hbh, hcb, List.mem_range]
          · simp [hbh, List.mem_range]
      · by_cases haxs : a ∈ xs <;> simp [hab, haxs]
  obtain ⟨h1, h2⟩ := main (List.range w) (fun a ha => List.mem_range.mp ha)
    s.possible_vals hs
  refine ⟨h1, ?_⟩
  intro a b
  rw [h2 a b]
  by_cases haw : a < w <;> simp [haw, List.mem_range]

lemma PossibleVals.size_of_shaped {pv : PossibleVals} {w h : Nat}
    (hs : pv.Shaped w h) (hw : 0 < w) : pv.size = some (w, h) := by
  obtain ⟨hlen, hrow⟩ := hs
  have hne : pv.inner.length ≠ 0 := by omega
  have h0 : 0 < pv.inner.length := by omega
  unfold PossibleVals.size
  rw [if_neg hne, hlen, List.getD_eq_getElem _ _ h0,
    hrow _ (List.getElem_mem h0)]

lemma get_possibilities_adjacent_pixels_of_shaped {pv : PossibleVals}
    {w h x y : Nat} (hs : pv.Shaped w h) (hx : x < w) (hy : y < h) :
    get_possibilities_adjacent_pixels pv x y =
      (some (pv.get x y),
        if 0 < y then some (pv.get x (y - 1)) else none,
        if y + 1 < h then some (pv.get x (y + 1)) else none,
        if 0 < x then some (pv.get (x - 1) y) else none,
        if x + 1 < w then some (pv.get (x + 1) y) else none) := by
  unfold get_possibilities_adjacent_pixels
  rw [PossibleVals.size_of_shaped hs (by omega)]
  have hdown : (y < h - 1) = (y + 1 < h) := by
    apply propext; omega
  have hright : (x < w - 1) = (x + 1 < w) := by
    apply propext; omega
  simp only [gt_iff_lt, hdown, hright]

lemma neighbor_in_bounds_up {w h x y : Nat} (hx : x < w) (hy : y < h) :
    neighbor_in_bounds w h x y Direction.Up ↔ 0 < y := by
  simp only [neighbor_in_bounds, neighbor_coord, Direction.offset]
  omega

lemma neighbor_in_bounds_down {w h x y : Nat} (hx : x < w) (hy : y < h) :
    neighbor_in_bounds w h x y Direction.Down ↔ y + 1 < h := by
  simp only [neighbor_in_bounds, neighbor_coord, Direction.offset]
  omega

lemma neighbor_in_bounds_left {w h x y : Nat} (hx : x < w) (hy : y < h) :
    neighbor_in_bounds w h x y Direction.Left ↔ 0 < x := by
  simp only [neighbor_in_bounds, neighbor_coord, Direction.offset]
  omega

lemma neighbor_in_bounds_right {w h x y : Nat} (hx : x < w) (hy : y < h) :
    neighbor_in_bounds w h x y Direction.Right ↔ x + 1 < w := by
  simp only [neighbor_in_bounds, neighbor_coord, Direction.offset]
  omega

lemma neighbor_get_up {pv : PossibleVals} {x y : Nat} :
    neighbor_get pv x y Direction.Up = pv.get x (y - 1) := by
  simp only [neighbor_get, neighbor_coord, Direction.offset]
  congr 1 <;> omega

lemma neighbor_get_down {pv : PossibleVals} {x y : Nat} :
    neighbor_get pv x y Direction.Down = pv.get x (y + 1) := by
  simp only [neighbor_get, neighbor_coord, Direction.offset]
  congr 1 <;> omega

lemma neighbor_get_left {pv : PossibleVals} {x y : Nat} :
    neighbor_get pv x y Direction.Left = pv.get (x - 1) y := by
  simp only [neighbor_get, neighbor_coord, Direction.offset]
  congr 1 <;> omega

lemma neighbor_get_right {pv : PossibleVals} {x y : Nat} :
    neighbor_get pv x y Direction.Right = pv.get (x + 1) y := by
  simp only [neighbor_get, neighbor_coord, Direction.offset]
  congr 1 <;> omega

lemma rule_violates_true_iff {pv : PossibleVals} {w h x y : Nat}
    (hx : x < w) (hy : y < h) (r : Rule) (p : Tile) :
    rule_violates r p
        (if 0 < y then some (pv.get x (y - 1)) else none)
        (if y + 1 < h then some (pv.get x (y + 1)) else none)
        (if 0 < x then some (pv.get (x - 1) y) else none)
        (if x + 1 < w then some (pv.get (x + 1) y) else none) = true ↔
      r.curr_tile = p ∧ neighbor_in_bounds w h x y r.direction ∧
        r.adj_tile ∉ neighbor_get pv x y r.direction := by
  obtain ⟨rc, ra, rd⟩ := r
  cases rd
  case Up =>
    rw [neighbor_in_bounds_up hx hy, neighbor_get_up]
    by_cases hy0 : 0 < y <;> by_cases hc : rc = p <;>
      simp [rule_violates, hy0, hc]
  case Down =>
    rw [neighbor_in_bounds_down hx hy, neighbor_get_down]
    by_cases hy0 : y + 1 < h <;> by_cases hc : rc = p <;>
      simp [rule_violates, hy0, hc]
  case Left =>
    rw [neighbor_in_bounds_left hx hy, neighbor_get_left]
    by_cases hx0 : 0 < x <;> by_cases hc : rc = p <;>
      simp [rule_violates, hx0, hc]
  case Right =>
    rw [neighbor_in_bounds_right hx hy, neighbor_get_right]
    by_cases hx0 : x + 1 < w <;> by_cases hc : rc = p <;>
      simp [rule_violates, hx0, hc]

lemma apply_rules_cell_eq {s : State} {rules : Finset Rule} {w h x y : Nat}
    (hs : s.possible_vals.Shaped w h) (hx : x < w) (hy : y < h) :
    apply_rules_cell s rules x y =
      (s.get x y).filter (fun p =>
        ¬ ∃ r ∈ rules, r.curr_tile = p ∧
          neighbor_in_bounds w h x y r.direction ∧
          r.adj_tile ∉ neighbor_get s.possible_vals x y r.direction) := by
  unfold apply_rules_cell
  rw [get_possibilities_adjacent_pixels_of_shaped hs hx hy]
  apply Finset.filter_congr
  intro p _
  constructor
  · intro hall
    rintro ⟨r, hr, hcurr, hib, hadj⟩
    have := hall r hr
    rw [← Bool.not_eq_true, rule_violates_true_iff hx hy] at this
    exact this ⟨hcurr, hib, hadj⟩
  · intro hnone r hr
    rw [← Bool.not_eq_true, rule_violates_true_iff hx hy]
    intro hviol
    exact hnone ⟨r, hr, hviol⟩

lemma row_sum_eq (row : List (Finset Tile)) (h : Nat) (hlen : row.length = h) :
    (row.map Finset.card).sum = ∑ y ∈ Finset.range h, (row.getD y ∅).card := by
  induction row generalizing h with
  | nil => subst hlen; simp
  | cons t rest ih =>
    subst hlen
    rw [List.length_cons, Finset.sum_range_succ']
    simp only [List.getD_cons_succ, List.getD_cons_zero]
    rw [List.map_cons, List.sum_cons, ih rest.length rfl]
    omega

lemma grid_sum_eq (l : List (List (Finset Tile))) (w h : Nat)
    (hlen : l.length = w) (hrow : ∀ row ∈ l, row.length = h) :
    (l.map (fun row => (row.map Finset.card).sum)).sum =
      ∑ x ∈ Finset.range w, ∑ y ∈ Finset.range h,
        ((l.getD x []).getD y ∅).card := by
  induction l generalizing w with
  | nil => subst hlen; simp
  | cons row rest ih =>
    subst hlen
    rw [List.length_cons, Finset.sum_range_succ']
    simp only [List.getD_cons_succ, List.getD_cons_zero]
    rw [List.map_cons, List.sum_cons,
      ih rest.length rfl (fun r hr => hrow r (List.mem_cons_of_mem _ hr)),
      row_sum_eq row h (hrow row (List.mem_cons_self _ _))]
    omega

lemma total_entropy_eq {s : State} {w h : Nat}
    (hs : s.possible_vals.Shaped w h) :
    s.get_total_entropy =
      ∑ x ∈ Finset.range w, ∑ y ∈ Finset.range h,
        (s.possible_vals.get x y).card :=
  grid_sum_eq _ w h hs.1 hs.2

lemma shaped_ext {pv pv' : PossibleVals} {w h : Nat}
    (hs : pv.Shaped w h) (hs' : pv'.Shaped w h)
    (hget : ∀ x < w, ∀ y < h, pv.get x y = pv'.get x y) : pv = pv' := by
  have hl : pv.inner.length = w := hs.1
  have hl' : pv'.inner.length = w := hs'.1
  have hinner : pv.inner = pv'.inner := by
    apply List.ext_getElem
    · omega
    · intro i h1 h2
      have hi : i < w := by omega
      have hrl : pv.inner[i].length = h := hs.2 _ (List.getElem_mem h1)
      have hrl' : pv'.inner[i].length = h := hs'.2 _ (List.getElem_mem h2)
      apply List.ext_getElem
      · omega
      · intro j hj1 hj2
        have hjh : j < h := by omega
        obtain ⟨hx', hy', heq⟩ := PossibleVals.get_eq_getElem hs hi hjh
        obtain ⟨hx'', hy'', heq'⟩ := PossibleVals.get_eq_getElem hs' hi hjh
        have := hget i hi j hjh
        rw [heq, heq'] at this
        exact this
  cases pv; cases pv'
  simpa using hinner

lemma apply_rules_grid_subset {s : State} {rules : Finset Rule} {w h : Nat}
    (hs : s.possible_vals.Shaped w h) (hw : s.width = w) (hh : s.height = h)
    (a b : Nat) :
    (apply_rules_grid s rules).get a b ⊆ s.possible_vals.get a b := by
  obtain ⟨_, hget⟩ := apply_rules_grid_get hs hw hh
  rw [hget a b]
  split
  · rename_i hcond
    rw [apply_rules_cell_eq hs hcond.1 hcond.2.1]
    exact Finset.filter_subset _ _
  · exact Finset.Subset.refl _

lemma propagate_pass_shaped {s : State} {rules : Finset Rule} {w h : Nat}
    (hs : s.possible_vals.Shaped w h) (hw : s.width = w) (hh : s.height = h) :
    (propagate_pass rules s).possible_vals.Shaped w h ∧
      (propagate_pass rules s).width = w ∧
      (propagate_pass rules s).height = h :=
  ⟨(apply_rules_grid_get hs hw hh).1, hw, hh⟩

lemma propagate_pass_entropy_lt {s : State} {rules : Finset Rule} {w h : Nat}
    (hs : s.possible_vals.Shaped w h) (hw : s.width = w) (hh : s.height = h)
    (hne : propagate_pass rules s ≠ s) :
    (propagate_pass rules s).get_total_entropy < s.get_total_entropy := by
  have hsh : (apply_rules_grid s rules).Shaped w h :=
    (apply_rules_grid_get hs hw hh).1
  have hpv : apply_rules_grid s rules ≠ s.possible_vals := by
    intro hcontra
    apply hne
    show s.with_possibilities (apply_rules_grid s rules) = s
    rw [hcontra]
    rfl
  have hex : ∃ x, x < w ∧ ∃ y, y < h ∧
      (apply_rules_grid s rules).get x y ≠ s.possible_vals.get x y := by
    by_contra hall
    push_neg at hall
    exact hpv (shaped_ext hsh hs (fun x hx y hy => hall x hx y hy))
  obtain ⟨x₀, hx₀, y₀, hy₀, hne₀⟩ := hex
  have hent : (propagate_pass rules s).get_total_entropy =
      ∑ x ∈ Finset.range w, ∑ y ∈ Finset.range h,
        ((apply_rules_grid s rules).get x y).card :=
    total_entropy_eq hsh
  rw [hent, total_entropy_eq hs]
  apply Finset.sum_lt_sum
  · intro x _
    apply Finset.sum_le_sum
    intro y _
    exact Finset.card_le_card (apply_rules_grid_subset hs hw hh x y)
  · refine ⟨x₀, Finset.mem_range.mpr hx₀, ?_⟩
    apply Finset.sum_lt_sum
    · intro y _
      exact Finset.card_le_card (apply_rules_grid_subset hs hw hh x₀ y)
    · refine ⟨y₀, Finset.mem_range.mpr hy₀, ?_⟩
      exact Finset.card_lt_card
        (lt_of_le_of_ne (apply_rules_grid_subset hs hw hh x₀ y₀) hne₀)

lemma total_entropy_le {s : State} {w h : Nat}
    (hs : s.possible_vals.Shaped w h) :
    s.get_total_entropy ≤ 3 * (w * h) := by
  rw [total_entropy_eq hs]
  calc ∑ x ∈ Finset.range w, ∑ y ∈ Finset.range h,
        (s.possible_vals.get x y).card
      ≤ ∑ _x ∈ Finset.range w, ∑ _y ∈ Finset.range h, 3 := by
        apply Finset.sum_le_sum
        intro x _
        apply Finset.sum_le_sum
        intro y _
        have := Finset.card_le_univ (s.possible_vals.get x y)
        simpa using this
    _ = 3 * (w * h) := by
        simp [Finset.sum_const, Finset.card_range]
        ring

lemma iterate_fixed_of_measure {f : State → State} {μ : State → Nat}
    {P : State → Prop} (hP : ∀ t, P t → P (f t))
    (hdec : ∀ t, P t → f t ≠ t → μ (f t) < μ t) :
    ∀ n t, P t → μ t ≤ n → f^[n] t = f^[n + 1] t := by
  intro n
  induction n with
  | zero =>
    intro t ht hμ
    by_cases hfix : f t = t
    · simpa using hfix.symm
    · exact absurd (hdec t ht hfix) (by omega)
  | succ n ih =>
    intro t ht hμ
    by_cases hfix : f t = t
    · rw [Function.iterate_fixed hfix, Function.iterate_fixed hfix]
    · have hμ' : μ (f t) ≤ n := by
        have := hdec t ht hfix
        omega
      rw [Function.iterate_succ_apply, Function.iterate_succ_apply (n := n + 1)]
      exact ih (f t) (hP t ht) hμ'

lemma image_neighbor_pixel_up {img : Image} {x y : Nat} :
    image_neighbor_pixel img x y Direction.Up = img.get_pixel x (y - 1) := by
  simp only [image_neighbor_pixel, neighbor_coord, Direction.offset]
  congr 1 <;> omega

lemma image_neighbor_pixel_down {img : Image} {x y : Nat} :
    image_neighbor_pixel img x y Direction.Down = img.get_pixel x (y + 1) := by
  simp only [image_neighbor_pixel, neighbor_coord, Direction.offset]
  congr 1 <;> omega

lemma image_neighbor_pixel_left {img : Image} {x y : Nat} :
    image_neighbor_pixel img x y Direction.Left = img.get_pixel (x - 1) y := by
  simp only [image_neighbor_pixel, neighbor_coord, Direction.offset]
  congr 1 <;> omega

lemma image_neighbor_pixel_right {img : Image} {x y : Nat} :
    image_neighbor_pixel img x y Direction.Right = img.get_pixel (x + 1) y := by
  simp only [image_neighbor_pixel, neighbor_coord, Direction.offset]
  congr 1 <;> omega

/-- The four ways the `extract_rules` loop can emit `r` while visiting the
cell `(x, y)`. -/
def extract_rules_emits (img : Image) (x y : Nat) (r : Rule) : Prop :=
  (0 < y ∧ r = Rule.new (img.get_pixel x (y - 1)) (img.get_pixel x y)
    Direction.Up) ∨
  (y + 1 < img.height ∧ r = Rule.new (img.get_pixel x (y + 1))
    (img.get_pixel x y) Direction.Down) ∨
  (0 < x ∧ r = Rule.new (img.get_pixel (x - 1) y) (img.get_pixel x y)
    Direction.Left) ∨
  (x + 1 < img.width ∧ r = Rule.new (img.get_pixel (x + 1) y)
    (img.get_pixel x y) Direction.Right)

lemma mem_extract_rules_step {img : Image} {x y : Nat} {rules : Finset Rule}
    {r : Rule} :
    r ∈ extract_rules_step img x y rules ↔
      r ∈ rules ∨ extract_rules_emits img x y r := by
  have hdown : (y < img.height - 1) ↔ (y + 1 < img.height) := by omega
  have hright : (x < img.width - 1) ↔ (x + 1 < img.width) := by omega
  unfold extract_rules_step get_image_adjacent_pixels extract_rules_emits
  by_cases hu : 0 < y <;> by_cases hd : y + 1 < img.height <;>
    by_cases hl : 0 < x <;> by_cases hr : x + 1 < img.width <;>
    simp [hu, hd, hl, hr, hdown, hright, Finset.mem_insert] <;>
    tauto

lemma mem_foldl_extract_rules_step (img : Image)
    (l : List (Nat × Nat)) (r : Rule) :
    ∀ init : Finset Rule,
      r ∈ l.foldl (fun rules c => extract_rules_step img c.1 c.2 rules) init ↔
        r ∈ init ∨ ∃ c ∈ l, extract_rules_emits img c.1 c.2 r := by
  induction l with
  | nil => intro init; simp
  | cons c cs ih =>
    intro init
    rw [List.foldl_cons, ih, mem_extract_rules_step]
    constructor
    · rintro ((h1 | h2) | h3)
      · exact Or.inl h1
      · exact Or.inr ⟨c, List.mem_cons_self _ _, h2⟩
      · obtain ⟨c', hc', he⟩ := h3
        exact Or.inr ⟨c', List.mem_cons_of_mem _ hc', he⟩
    · rintro (h1 | ⟨c', hc', he⟩)
      · exact Or.inl (Or.inl h1)
      · rcases List.mem_cons.mp hc' with hcc | hcs
        · subst hcc; exact Or.inl (Or.inr he)
        · exact Or.inr ⟨c', hcs, he⟩

lemma mem_coordinates {img : Image} {c : Nat × Nat} :
    c ∈ img.coordinates ↔ c.1 < img.width ∧ c.2 < img.height := by
  unfold Image.coordinates
  have main : ∀ xs : List Nat,
      c ∈ xs.foldr
          (fun x acc => ((List.range img.height).map (fun y => (x, y))) ++ acc)
          [] ↔
        ∃ x ∈ xs, ∃ y ∈ List.range img.height, c = (x, y) := by
    intro xs
    induction xs with
    | nil => simp
    | cons x xs ih =>
      simp only [List.foldr_cons, List.mem_append, ih, List.mem_map,
        List.mem_cons]
      constructor
      · rintro (⟨y, hy, rfl⟩ | ⟨x', hx', y, hy, rfl⟩)
        · exact ⟨x, Or.inl rfl, y, hy, rfl⟩
        · exact ⟨x', Or.inr hx', y, hy, rfl⟩
      · rintro ⟨x', hx' | hx', y, hy, rfl⟩
        · subst hx'; exact Or.inl ⟨y, hy, rfl⟩
        · exact Or.inr ⟨x', hx', y, hy, rfl⟩
  rw [main]
  constructor
  · rintro ⟨x, hx, y, hy, rfl⟩
    exact ⟨List.mem_range.mp hx, List.mem_range.mp hy⟩
  · rintro ⟨hx, hy⟩
    exact ⟨c.1, List.mem_range.mpr hx, c.2, List.mem_range.mpr hy, rfl⟩

lemma mem_extract_rules {img : Image} {r : Rule} :
    r ∈ extract_rules img ↔
      ∃ x, x < img.width ∧ ∃ y, y < img.height ∧
        extract_rules_emits img x y r := by
  unfold extract_rules
  rw [mem_foldl_extract_rules_step]
  simp only [Finset.not_mem_empty, false_or]
  constructor
  · rintro ⟨c, hc, he⟩
    obtain ⟨hx, hy⟩ := mem_coordinates.mp hc
    exact ⟨c.1, hx, c.2, hy, he⟩
  · rintro ⟨x, hx, y, hy, he⟩
    exact ⟨(x, y), mem_coordinates.mpr ⟨hx, hy⟩, he⟩

lemma extract_rules_emits_iff {img : Image} {x y : Nat}
    (hx : x < img.width) (hy : y < img.height) (r : Rule) :
    extract_rules_emits img x y r ↔
      neighbor_in_bounds img.width img.height x y r.direction ∧
        image_neighbor_pixel img x y r.direction = r.curr_tile ∧
        img.get_pixel x y = r.adj_tile := by
  obtain ⟨rc, ra, rd⟩ := r
  unfold extract_rules_emits
  cases rd
  case Up =>
    rw [neighbor_in_bounds_up hx hy, image_neighbor_pixel_up]
    constructor
    · rintro (⟨h0, heq⟩ | ⟨h0, heq⟩ | ⟨h0, heq⟩ | ⟨h0, heq⟩) <;>
        injection heq with h1 h2 h3
      · exact ⟨h0, h1.symm, h2.symm⟩
      · exact Direction.noConfusion h3
      · exact Direction.noConfusion h3
      · exact Direction.noConfusion h3
    · rintro ⟨h0, h1, h2⟩
      refine Or.inl ⟨h0, ?_⟩
      rw [show img.get_pixel x (y - 1) = rc from h1,
        show img.get_pixel x y = ra from h2]
      rfl
  case Down =>
    rw [neighbor_in_bounds_down hx hy, image_neighbor_pixel_down]
    constructor
    · rintro (⟨h0, heq⟩ | ⟨h0, heq⟩ | ⟨h0, heq⟩ | ⟨h0, heq⟩) <;>
        injection heq with h1 h2 h3
      · exact Direction.noConfusion h3
      · exact ⟨h0, h1.symm, h2.symm⟩
      · exact Direction.noConfusion h3
      · exact Direction.noConfusion h3
    · rintro ⟨h0, h1, h2⟩
      refine Or.inr (Or.inl ⟨h0, ?_⟩)
      rw [show img.get_pixel x (y + 1) = rc from h1,
        show img.get_pixel x y = ra from h2]
      rfl
  case Left =>
    rw [neighbor_in_bounds_left hx hy, image_neighbor_pixel_left]
    constructor
    · rintro (⟨h0, heq⟩ | ⟨h0, heq⟩ | ⟨h0, heq⟩ | ⟨h0, heq⟩) <;>
        injection heq with h1 h2 h3
      · exact Direction.noConfusion h3
      · exact Direction.noConfusion h3
      · exact ⟨h0, h1.symm, h2.symm⟩
      · exact Direction.noConfusion h3
    · rintro ⟨h0, h1, h2⟩
      refine Or.inr (Or.inr (Or.inl ⟨h0, ?_⟩))
      rw [show img.get_pixel (x - 1) y = rc from h1,
        show img.get_pixel x y = ra from h2]
      rfl
  case Right =>
    rw [neighbor_in_bounds_right hx hy, image_neighbor_pixel_right]
    constructor
    · rintro (⟨h0, heq⟩ | ⟨h0, heq⟩ | ⟨h0, heq⟩ | ⟨h0, heq⟩) <;>
        injection heq with h1 h2 h3
      · exact Direction.noConfusion h3
      · exact Direction.noConfusion h3
      · exact Direction.noConfusion h3
      · exact ⟨h0, h1.symm, h2.symm⟩
    · rintro ⟨h0, h1, h2⟩
      refine Or.inr (Or.inr (Or.inr ⟨h0, ?_⟩))
      rw [show img.get_pixel (x + 1) y = rc from h1,
        show img.get_pixel x y = ra from h2]
      rfl

lemma hash_set_first_singleton (t : Tile) : hash_set_first {t} = t := by
  cases t <;> decide

lemma contains_invalid_tiles_iff (pv : PossibleVals) :
    contains_invalid_tiles pv = true ↔
      ∃ row ∈ pv.inner, ∃ t ∈ row, t = ∅ := by
  simp [contains_invalid_tiles]

lemma apply_rules_eq_none_iff (s : State) (rules : Finset Rule) :
    apply_rules s rules = none ↔
      contains_invalid_tiles (apply_rules_grid s rules) = true := by
  unfold apply_rules
  simp only []
  by_cases hc : contains_invalid_tiles (apply_rules_grid s rules) = true
  · simp [hc]
  · simp [hc]

lemma apply_rules_eq_some_iff (s : State) (rules : Finset Rule) (s' : State) :
    apply_rules s rules = some s' ↔
      contains_invalid_tiles (apply_rules_grid s rules) = false ∧
        s' = s.with_possibilities (apply_rules_grid s rules) := by
  unfold apply_rules
  simp only []
  by_cases hc : contains_invalid_tiles (apply_rules_grid s rules) = true
  · simp [hc]
  · simp only [Bool.not_eq_true] at hc
    simp [hc, eq_comm]

lemma generate_image_propagation_loop_eq :
    ∀ (fuel : Nat) (old_state state : State) (rules : Finset Rule),
      generate_image_propagation_loop fuel old_state state rules = state := by
  intro fuel
  induction fuel with
  | zero => intro old_state state rules; rfl
  | succ fuel ih =>
    intro old_state state rules
    unfold generate_image_propagation_loop
    split
    · exact ih state state rules
    · rfl

lemma get_lowest_entropy_acc_eq (pv : PossibleVals) :
    get_lowest_entropy_acc pv = (grid_cells pv).foldl lef_step (USIZE_MAX, []) := by
  unfold get_lowest_entropy_acc grid_cells
  have hinner : ∀ (p : Nat × List (Finset Tile))
      (acc : Nat × List (Nat × Nat)),
      p.2.enum.foldl
        (fun acc' q =>
          let entropy := q.2.card
          if entropy = 1 then acc'
          else if entropy < acc'.1 then (entropy, [(p.1, q.1)])
          else if entropy = acc'.1 then (acc'.1, acc'.2 ++ [(p.1, q.1)])
          else acc') acc =
      (p.2.enum.map (fun q => ((p.1, q.1), q.2))).foldl lef_step acc := by
    intro p acc
    rw [List.foldl_map]
    rfl
  have main : ∀ (l : List (Nat × List (Finset Tile)))
      (init : Nat × List (Nat × Nat)),
      l.foldl
        (fun acc p =>
          p.2.enum.foldl
            (fun acc' q =>
              let entropy := q.2.card
              if entropy = 1 then acc'
              else if entropy < acc'.1 then (entropy, [(p.1, q.1)])
              else if entropy = acc'.1 then (acc'.1, acc'.2 ++ [(p.1, q.1)])
              else acc') acc) init =
      (l.foldr (fun p acc => (p.2.enum.map (fun q => ((p.1, q.1), q.2))) ++ acc)
        []).foldl lef_step init := by
    intro l
    induction l with
    | nil => intro init; rfl
    | cons p l ih =>
      intro init
      rw [List.foldl_cons, List.foldr_cons, List.foldl_append, ← ih, hinner]
  exact main _ _

lemma card_lt_usize_max (t : Finset Tile) : t.card < USIZE_MAX := by
  have h1 : t.card ≤ 3 := by
    have := Finset.card_le_univ t
    simpa using this
  have h2 : (3 : Nat) < USIZE_MAX := by norm_num [USIZE_MAX]
  omega

lemma lef_fold_invariant (L : List ((Nat × Nat) × Finset Tile)) :
    (∀ c ∈ (L.foldl lef_step (USIZE_MAX, [])).2,
      ∃ t, (c, t) ∈ L ∧ t.card = (L.foldl lef_step (USIZE_MAX, [])).1 ∧
        t.card ≠ 1) ∧
    (∀ p ∈ L, p.2.card ≠ 1 → (L.foldl lef_step (USIZE_MAX, [])).1 ≤ p.2.card) ∧
    ((L.foldl lef_step (USIZE_MAX, [])).2 = [] ↔ ∀ p ∈ L, p.2.card = 1) ∧
    ((L.foldl lef_step (USIZE_MAX, [])).2 = [] →
      (L.foldl lef_step (USIZE_MAX, [])).1 = USIZE_MAX) := by
  induction L using List.reverseRecOn with
  | nil => refine ⟨by simp, by simp, by simp, by simp⟩
  | append_singleton L x ih =>
    obtain ⟨ih1, ih2, ih3, ih4⟩ := ih
    rw [List.foldl_append, List.foldl_cons, List.foldl_nil]
    set acc := L.foldl lef_step (USIZE_MAX, []) with hacc
    by_cases h1 : x.2.card = 1
    · have hstep : lef_step acc x = acc := by
        simp [lef_step, h1]
      rw [hstep]
      refine ⟨?_, ?_, ?_, ih4⟩
      · intro c hc
        obtain ⟨t, ht, hcard, hne⟩ := ih1 c hc
        exact ⟨t, List.mem_append_left _ ht, hcard, hne⟩
      · intro p hp hpc
        rcases List.mem_append.mp hp with hL | hx
        · exact ih2 p hL hpc
        · rw [List.mem_singleton.mp hx] at hpc
          exact absurd h1 hpc
      · rw [ih3]
        constructor
        · intro hall p hp
          rcases List.mem_append.mp hp with hL | hx
          · exact hall p hL
          · rw [List.mem_singleton.mp hx]; exact h1
        · intro hall p hp
          exact hall p (List.mem_append_left _ hp)
    · by_cases h2 : x.2.card < acc.1
      · have hstep : lef_step acc x = (x.2.card, [x.1]) := by
          simp [lef_step, h1, h2]
        rw [hstep]
        refine ⟨?_, ?_, ?_, ?_⟩
        · intro c hc
          rw [List.mem_singleton.mp hc]
          exact ⟨x.2, List.mem_append_right _ (List.mem_singleton.mpr rfl),
            rfl, h1⟩
        · intro p hp hpc
          rcases List.mem_append.mp hp with hL | hx
          · have := ih2 p hL hpc
            omega
          · rw [List.mem_singleton.mp hx]
        · constructor
          · intro hcontra; cases hcontra
          · intro hall
            exact absurd (hall x (List.mem_append_right _
              (List.mem_singleton.mpr rfl))) h1
        · intro hcontra; cases hcontra
      · by_cases h3 : x.2.card = acc.1
        · have hstep : lef_step acc x = (acc.1, acc.2 ++ [x.1]) := by
            simp only [lef_step]
            rw [if_neg h1, if_neg h2, if_pos h3]
          rw [hstep]
          refine ⟨?_, ?_, ?_, ?_⟩
          · intro c hc
            rcases List.mem_append.mp hc with hc2 | hcx
            · obtain ⟨t, ht, hcard, hne⟩ := ih1 c hc2
              exact ⟨t, List.mem_append_left _ ht, hcard, hne⟩
            · rw [List.mem_singleton.mp hcx]
              exact ⟨x.2, List.mem_append_right _ (List.mem_singleton.mpr rfl),
                h3, h1⟩
          · intro p hp hpc
            rcases List.mem_append.mp hp with hL | hx
            · exact ih2 p hL hpc
            · rw [List.mem_singleton.mp hx]; omega
          · constructor
            · intro hcontra
              exact absurd hcontra (List.append_ne_nil_of_right_ne_nil _
                (by simp))
            · intro hall
              exact absurd (hall x (List.mem_append_right _
                (List.mem_singleton.mpr rfl))) h1
          · intro hcontra
            exact absurd hcontra (List.append_ne_nil_of_right_ne_nil _
              (by simp))
        · have hstep : lef_step acc x = acc := by
            simp only [lef_step]
            rw [if_neg h1, if_neg h2, if_neg h3]
          rw [hstep]
          refine ⟨?_, ?_, ?_, ih4⟩
          · intro c hc
            obtain ⟨t, ht, hcard, hne⟩ := ih1 c hc
            exact ⟨t, List.mem_append_left _ ht, hcard, hne⟩
          · intro p hp hpc
            rcases List.mem_append.mp hp with hL | hx
            · exact ih2 p hL hpc
            · rw [List.mem_singleton.mp hx]; omega
          · constructor
            · intro hnil
              have hmax := ih4 hnil
              have := card_lt_usize_max x.2
              omega
            · intro hall
              exact absurd (hall x (List.mem_append_right _
                (List.mem_singleton.mpr rfl))) h1

lemma mem_grid_cells {pv : PossibleVals} {z : (Nat × Nat) × Finset Tile} :
    z ∈ grid_cells pv ↔
      ∃ row, pv.inner[z.1.1]? = some row ∧ row[z.1.2]? = some z.2 := by
  unfold grid_cells
  have main : ∀ l : List (Nat × List (Finset Tile)),
      z ∈ l.foldr
          (fun p acc => (p.2.enum.map (fun q => ((p.1, q.1), q.2))) ++ acc)
          [] ↔
        ∃ p ∈ l, z ∈ p.2.enum.map (fun q => ((p.1, q.1), q.2)) := by
    intro l
    induction l with
    | nil => simp
    | cons p l ih =>
      simp only [List.foldr_cons, List.mem_append, ih, List.mem_cons]
      constructor
      · rintro (h | ⟨p', hp', hz⟩)
        · exact ⟨p, Or.inl rfl, h⟩
        · exact ⟨p', Or.inr hp', hz⟩
      · rintro ⟨p', hp' | hp', hz⟩
        · subst hp'; exact Or.inl hz
        · exact Or.inr ⟨p', hp', hz⟩
  rw [main]
  constructor
  · rintro ⟨p, hp, hz⟩
    rw [List.mem_map] at hz
    obtain ⟨q, hq, hzq⟩ := hz
    obtain ⟨i, row⟩ := p
    obtain ⟨j, t⟩ := q
    have hrow : pv.inner[i]? = some row := List.mk_mem_enum_iff_getElem?.mp hp
    have ht : row[j]? = some t := List.mk_mem_enum_iff_getElem?.mp hq
    subst hzq
    exact ⟨row, hrow, ht⟩
  · rintro ⟨row, hrow, ht⟩
    obtain ⟨⟨i, j⟩, t⟩ := z
    refine ⟨(i, row), List.mk_mem_enum_iff_getElem?.mpr hrow, ?_⟩
    rw [List.mem_map]
    exact ⟨(j, t), List.mk_mem_enum_iff_getElem?.mpr ht, rfl⟩

lemma mem_grid_cells_of_mem {pv : PossibleVals} {row : List (Finset Tile)}
    {t : Finset Tile} (hrow : row ∈ pv.inner) (ht : t ∈ row) :
    ∃ c : Nat × Nat, ((c, t) : (Nat × Nat) × Finset Tile) ∈ grid_cells pv := by
  obtain ⟨i, hi⟩ := List.mem_iff_getElem?.mp hrow
  obtain ⟨j, hj⟩ := List.mem_iff_getElem?.mp ht
  exact ⟨(i, j), mem_grid_cells.mpr ⟨row, hi, hj⟩⟩

lemma get_lowest_entropy_tile_none_iff (r : Nat) (pv : PossibleVals) :
    get_lowest_entropy_tile r pv = none ↔
      ∀ row ∈ pv.inner, ∀ t ∈ row, t.card = 1 := by
  obtain ⟨inv1, inv2, inv3, inv4⟩ := lef_fold_invariant (grid_cells pv)
  rw [← get_lowest_entropy_acc_eq] at inv1 inv2 inv3 inv4
  unfold get_lowest_entropy_tile
  set cands := (get_lowest_entropy_acc pv).2 with hcands
  have hiff : cands.get? (r % cands.length) = none ↔ cands = [] := by
    constructor
    · intro hnone
      by_contra hne
      have hlen : 0 < cands.length := List.length_pos.mpr hne
      have hlt : r % cands.length < cands.length := Nat.mod_lt _ hlen
      rw [List.get?_eq_getElem?, List.getElem?_eq_getElem hlt] at hnone
      cases hnone
    · intro hnil
      rw [hnil]
      rfl
  rw [hiff, inv3]
  constructor
  · intro hall row hrow t ht
    obtain ⟨c, hc⟩ := mem_grid_cells_of_mem hrow ht
    exact hall (c, t) hc
  · intro hall p hp
    obtain ⟨row, hrow, ht⟩ := mem_grid_cells.mp hp
    exact hall row (List.getElem?_mem hrow) p.2 (List.getElem?_mem ht)

lemma get_lowest_entropy_tile_some {r : Nat} {pv : PossibleVals} {i j : Nat}
    (h : get_lowest_entropy_tile r pv = some (i, j)) :
    ∃ row, pv.inner[i]? = some row ∧ ∃ t, row[j]? = some t ∧ t.card ≠ 1 ∧
      ∀ row' ∈ pv.inner, ∀ t' ∈ row', t'.card ≠ 1 → t.card ≤ t'.card := by
  obtain ⟨inv1, inv2, inv3, inv4⟩ := lef_fold_invariant (grid_cells pv)
  rw [← get_lowest_entropy_acc_eq] at inv1 inv2 inv3 inv4
  unfold get_lowest_entropy_tile at h
  have hmem : (i, j) ∈ (get_lowest_entropy_acc pv).2 := List.get?_mem h
  obtain ⟨t, htL, htcard, htne⟩ := inv1 (i, j) hmem
  obtain ⟨row, hrow, ht⟩ := mem_grid_cells.mp htL
  refine ⟨row, hrow, t, ht, htne, ?_⟩
  intro row' hrow' t' ht' hne'
  obtain ⟨c, hc⟩ := mem_grid_cells_of_mem hrow' ht'
  have h2 : (get_lowest_entropy_acc pv).1 ≤ t'.card := inv2 (c, t') hc hne'
  omega

lemma apply_rules_grid_get_of_card_ne_one {s : State} {rules : Finset Rule}
    {x y : Nat} (hwf : s.WF) (hx : x < s.width) (hy : y < s.height)
    (hcard : (s.get x y).card ≠ 1) :
    (apply_rules_grid s rules).get x y = apply_rules_cell s rules x y := by
  obtain ⟨_, hget⟩ := apply_rules_grid_get ((State.wf_iff_shaped s).mp hwf)
    rfl rfl
  rw [hget x y, if_pos ⟨hx, hy, hcard⟩]

/-- **C1** (confirmed).  `apply_rules` computes, for each cell whose
possibility set has size other than one, the new set containing exactly the
labels `p` of the old set such that there is no rule `(p, m, d)` whose
direction-`d` neighbour of the cell is in bounds and whose required label
`m` is absent from that neighbour's possibility set *in the input wave*;
and the `State` it returns under `Some` is a new state carrying this grid
with all other fields (dimensions included) copied from the input, the
input itself being untouched (the embedding is purely functional). -/
theorem apply_rules_filters_each_undetermined_cell
    (s : State) (rules : Finset Rule) (hwf : s.WF)
    (x y : Nat) (hx : x < s.width) (hy : y < s.height)
    (hcard : (s.get x y).card ≠ 1) :
    (apply_rules_grid s rules).get x y =
      (s.get x y).filter (fun p =>
        ¬ ∃ r ∈ rules, r.curr_tile = p ∧
          neighbor_in_bounds s.width s.height x y r.direction ∧
          r.adj_tile ∉ neighbor_get s.possible_vals x y r.direction) ∧
    ∀ s', apply_rules s rules = some s' →
      s'.possible_vals = apply_rules_grid s rules ∧
      s'.width = s.width ∧ s'.height = s.height ∧
      s'.curr_file_index = s.curr_file_index := by
  have hs := (State.wf_iff_shaped s).mp hwf
  constructor
  · rw [apply_rules_grid_get_of_card_ne_one hwf hx hy hcard]
    exact apply_rules_cell_eq hs hx hy
  · intro s' hsome
    obtain ⟨_, hs'⟩ := (apply_rules_eq_some_iff s rules s').mp hsome
    subst hs'
    exact ⟨rfl, rfl, rfl, rfl⟩

/-- Witness for C1 at the 1×1 wave with cell `{Red, Green}` and the
Red↕Red / Green↕Green rule set. -/
theorem apply_rules_filters_each_undetermined_cell_witness :
    ex_state_1x1.WF ∧ 0 < ex_state_1x1.width ∧ 0 < ex_state_1x1.height ∧
      (ex_state_1x1.get 0 0).card ≠ 1 ∧
      ((apply_rules_grid ex_state_1x1 ex_rules_ud).get 0 0 =
        (ex_state_1x1.get 0 0).filter (fun p =>
          ¬ ∃ r ∈ ex_rules_ud, r.curr_tile = p ∧
            neighbor_in_bounds ex_state_1x1.width ex_state_1x1.height 0 0
              r.direction ∧
            r.adj_tile ∉ neighbor_get ex_state_1x1.possible_vals 0 0
              r.direction) ∧
      ∀ s', apply_rules ex_state_1x1 ex_rules_ud = some s' →
        s'.possible_vals = apply_rules_grid ex_state_1x1 ex_rules_ud ∧
        s'.width = ex_state_1x1.width ∧ s'.height = ex_state_1x1.height ∧
        s'.curr_file_index = ex_state_1x1.curr_file_index) :=
  ⟨by decide, by decide, by decide, by decide,
    apply_rules_filters_each_undetermined_cell ex_state_1x1 ex_rules_ud
      (by decide) 0 0 (by decide) (by decide) (by decide)⟩

/-- **C9** (confirmed).  A cell whose possibility set has exactly one
element is skipped by the propagation pass (`continue` in the per-cell
loop), so its set in the computed grid — and in any `State` returned under
`Some` — is identical to its set in the input wave. -/
theorem propagation_preserves_collapsed_cells
    (s : State) (rules : Finset Rule) (hwf : s.WF)
    (x y : Nat) (hx : x < s.width) (hy : y < s.height)
    (hcard : (s.get x y).card = 1) :
    (apply_rules_grid s rules).get x y = s.get x y ∧
    ∀ s', apply_rules s rules = some s' → s'.get x y = s.get x y := by
  have hs := (State.wf_iff_shaped s).mp hwf
  obtain ⟨_, hget⟩ := apply_rules_grid_get hs rfl rfl
  have hgrid : (apply_rules_grid s rules).get x y = s.get x y := by
    rw [hget x y, if_neg (fun hc => hc.2.2 hcard)]
    rfl
  refine ⟨hgrid, ?_⟩
  intro s' hsome
  obtain ⟨_, hs'⟩ := (apply_rules_eq_some_iff s rules s').mp hsome
  subst hs'
  exact hgrid

/-- Witness for C9 at the 2×2 post-collapse wave whose cell `(0,0)` is the
singleton `{Red}`. -/
theorem propagation_preserves_collapsed_cells_witness :
    ex_state_2x2_collapsed.WF ∧ 0 < ex_state_2x2_collapsed.width ∧
      0 < ex_state_2x2_collapsed.height ∧
      (ex_state_2x2_collapsed.get 0 0).card = 1 ∧
      ((apply_rules_grid ex_state_2x2_collapsed ex_rules_ud).get 0 0 =
        ex_state_2x2_collapsed.get 0 0 ∧
      ∀ s', apply_rules ex_state_2x2_collapsed ex_rules_ud = some s' →
        s'.get 0 0 = ex_state_2x2_collapsed.get 0 0) :=
  ⟨by decide, by decide, by decide, by decide,
    propagation_preserves_collapsed_cells ex_state_2x2_collapsed ex_rules_ud
      (by decide) 0 0 (by decide) (by decide) (by decide)⟩

/-- **C10** (confirmed).  `apply_rules` returns `None` exactly when the
grid it computed contains an empty cell (`contains_invalid_tiles`), so
every `State` under `Some` has a non-empty set at every cell; in the `None`
case the input is untouched (the embedding is purely functional and
`apply_rules` only reads `curr_state`). -/
theorem apply_rules_none_iff_empty_cell (s : State) (rules : Finset Rule) :
    (apply_rules s rules = none ↔
      ∃ row ∈ (apply_rules_grid s rules).inner, ∃ t ∈ row, t = ∅) ∧
    ∀ s', apply_rules s rules = some s' →
      s'.possible_vals = apply_rules_grid s rules ∧
      ∀ row ∈ s'.possible_vals.inner, ∀ t ∈ row, t ≠ ∅ := by
  constructor
  · rw [apply_rules_eq_none_iff, contains_invalid_tiles_iff]
  · intro s' hsome
    obtain ⟨hinv, hs'⟩ := (apply_rules_eq_some_iff s rules s').mp hsome
    subst hs'
    refine ⟨rfl, ?_⟩
    intro row hrow t ht htem
    have hc : contains_invalid_tiles (apply_rules_grid s rules) = true :=
      (contains_invalid_tiles_iff _).mpr ⟨row, hrow, t, ht, htem⟩
    rw [hinv] at hc
    cases hc

/-- **C4** (confirmed).  On the 2×2 sample `Red, Blue, Red, Red`
(row-major), `extract_rules` returns exactly the 8 rules listed in the
claim — the same set the repository's `test_extract_rules` expects. -/
theorem extract_rules_scenario_a :
    extract_rules sample_2x2 =
      ({Rule.new Tile.Red Tile.Blue Direction.Left,
        Rule.new Tile.Blue Tile.Red Direction.Right,
        Rule.new Tile.Red Tile.Blue Direction.Down,
        Rule.new Tile.Blue Tile.Red Direction.Up,
        Rule.new Tile.Red Tile.Red Direction.Up,
        Rule.new Tile.Red Tile.Red Direction.Down,
        Rule.new Tile.Red Tile.Red Direction.Left,
        Rule.new Tile.Red Tile.Red Direction.Right} : Finset Rule) ∧
    (extract_rules sample_2x2).card = 8 := by decide

/-- **C3** (counterexample).  On the 2×1 sample `Red, Blue` the rule set
`extract_rules` returns is *not* the set described by the claim (subject
`label(x,y)`, neighbour `label(x+dx, y+dy)`): the code emits
`(Blue, Red, Right)` — whose subject `Blue` has no in-bounds Right
neighbour at all, refuting the claimed soundness reading — and does not
emit the claimed `(Red, Blue, Right)`. -/
theorem extract_rules_claimed_direction_counterexample :
    extract_rules sample_2x1 ≠ extract_rules_claimed sample_2x1 ∧
    Rule.new Tile.Blue Tile.Red Direction.Right ∈ extract_rules sample_2x1 ∧
    Rule.new Tile.Blue Tile.Red Direction.Right ∉
      extract_rules_claimed sample_2x1 ∧
    Rule.new Tile.Red Tile.Blue Direction.Right ∉ extract_rules sample_2x1 ∧
    Rule.new Tile.Red Tile.Blue Direction.Right ∈
      extract_rules_claimed sample_2x1 := by decide

/-- **C3** (amended).  `extract_rules` emits exactly the deduplicated
union, over every cell `(x, y)` and every direction `d` whose neighbour is
in bounds, of the rule whose *subject* is the label of the direction-`d`
neighbour, whose neighbour label is `label(x, y)`, and whose direction is
`d`; consequently every emitted rule `(s, n, d)` is witnessed by an
in-bounds pair where the direction-`d` *neighbour* carries label `s` and
the base cell carries label `n` (equivalently: a cell labelled `s` whose
neighbour in the direction *opposite* to `d` is labelled `n`). -/
theorem extract_rules_characterization_amended (img : Image) (r : Rule) :
    r ∈ extract_rules img ↔
      ∃ x, x < img.width ∧ ∃ y, y < img.height ∧
        neighbor_in_bounds img.width img.height x y r.direction ∧
        image_neighbor_pixel img x y r.direction = r.curr_tile ∧
        img.get_pixel x y = r.adj_tile := by
  rw [mem_extract_rules]
  constructor
  · rintro ⟨x, hx, y, hy, he⟩
    exact ⟨x, hx, y, hy, (extract_rules_emits_iff hx hy r).mp he⟩
  · rintro ⟨x, hx, y, hy, he⟩
    exact ⟨x, hx, y, hy, (extract_rules_emits_iff hx hy r).mpr he⟩

/-- **C5** (counterexample).  On the well-formed 2×1 wave
`{Red,Green,Blue} | {Red,Green}` with rules
`{(Blue,Blue,Right), (Green,Blue,Left), (Green,Green,Right)}`, the first
`width*height = 2` propagation passes all change the wave and the wave
after pass 2 still differs from the wave after pass 3 — so no fixed point
is reached within `width*height` passes, refuting the claimed bound. -/
theorem propagation_fixed_point_bound_counterexample :
    ex_state_2x1_chain.WF ∧
    ex_state_2x1_chain.width * ex_state_2x1_chain.height = 2 ∧
    (∀ k ≤ 2, (propagate_pass ex_rules_chain)^[k] ex_state_2x1_chain ≠
      (propagate_pass ex_rules_chain)^[k + 1] ex_state_2x1_chain) := by
  decide

/-- **C5** (amended).  Each propagation pass shrinks (never grows) every
cell's possibility set, and — since the total possibility count is at most
`3 * width * height` (three labels exist) and strictly decreases on every
non-stationary pass — a fixed point is reached within at most
`3 * width * height` passes rather than the claimed `width * height`. -/
theorem propagation_monotone_and_bounded_fixed_point
    (s : State) (rules : Finset Rule) (hwf : s.WF) :
    (∀ x y, (apply_rules_grid s rules).get x y ⊆ s.possible_vals.get x y) ∧
    (propagate_pass rules)^[3 * (s.width * s.height)] s =
      (propagate_pass rules)^[3 * (s.width * s.height) + 1] s := by
  have hs := (State.wf_iff_shaped s).mp hwf
  refine ⟨apply_rules_grid_subset hs rfl rfl, ?_⟩
  have hfix := iterate_fixed_of_measure
    (f := propagate_pass rules) (μ := State.get_total_entropy)
    (P := fun t => t.possible_vals.Shaped s.width s.height ∧
      t.width = s.width ∧ t.height = s.height)
    (fun t ht => propagate_pass_shaped ht.1 ht.2.1 ht.2.2)
    (fun t ht hne => propagate_pass_entropy_lt ht.1 ht.2.1 ht.2.2 hne)
    (3 * (s.width * s.height)) s ⟨hs, rfl, rfl⟩
  apply hfix
  have := total_entropy_le hs
  omega

/-- Witness for the amended C5 at the 2×1 chain wave. -/
theorem propagation_monotone_and_bounded_fixed_point_witness :
    ex_state_2x1_chain.WF ∧
      ((∀ x y, (apply_rules_grid ex_state_2x1_chain ex_rules_chain).get x y ⊆
        ex_state_2x1_chain.possible_vals.get x y) ∧
      (propagate_pass ex_rules_chain)^[3 *
          (ex_state_2x1_chain.width * ex_state_2x1_chain.height)]
          ex_state_2x1_chain =
        (propagate_pass ex_rules_chain)^[3 *
          (ex_state_2x1_chain.width * ex_state_2x1_chain.height) + 1]
          ex_state_2x1_chain) :=
  ⟨by decide, propagation_monotone_and_bounded_fixed_point
    ex_state_2x1_chain ex_rules_chain (by decide)⟩

/-- **C2** (code bug).  The propagation loop of `generate_image`
(`src/state.rs` 313-316) calls `apply_rules` but discards its return value
and never reassigns `state`, so for any fuel and any `old_state` it
returns its input wave unchanged; yet at the concrete post-collapse wave
`ex_state_2x2_collapsed` (cell `(0,0)` just collapsed to `{Red}`, rules
Red↕Red / Green↕Green) a single real propagation pass changes the wave —
hence the wave carried into the next iteration is the *unpropagated*
post-collapse wave and not the propagation fixed point the claim (and
the spec) require. -/
theorem generate_image_discards_propagation :
    (∀ (fuel : Nat) (old_state : State),
      generate_image_propagation_loop fuel old_state ex_state_2x2_collapsed
        ex_rules_ud = ex_state_2x2_collapsed) ∧
    apply_rules_grid ex_state_2x2_collapsed ex_rules_ud ≠
      ex_state_2x2_collapsed.possible_vals ∧
    propagate_pass ex_rules_ud ex_state_2x2_collapsed ≠
      ex_state_2x2_collapsed :=
  ⟨fun fuel old_state =>
    generate_image_propagation_loop_eq fuel old_state _ _,
    by decide, by decide⟩

/-- **C6** (code bug).  `State::new` builds the grid transposed:
`vec![vec![alphabet; w]; h]` has outer length `h` and row length `w`,
while `width`/`height` are recorded as `w`/`h` and every consumer of the
state (including `apply_rules` and the decoder, via `inner[x][y]`)
requires outer length `width`.  At the failing input `w = 2, h = 1` the
constructed state has only one outer entry, so the cell `(1, 0)` with
`x = 1 < w` is not addressable and the well-formedness contract fails;
only square grids (`w = n = h`) satisfy it.  The good half of the claim
does hold: every stored set is the full alphabet
(union of subjects and neighbours of the rule set). -/
theorem state_new_transposed_grid :
    all_tiles_types ex_rules_ud = ({Tile.Red, Tile.Green} : Finset Tile) ∧
    (State.new 2 1 (all_tiles_types ex_rules_ud)).width = 2 ∧
    (State.new 2 1 (all_tiles_types ex_rules_ud)).height = 1 ∧
    (State.new 2 1 (all_tiles_types ex_rules_ud)).possible_vals.inner.length
      = 1 ∧
    ¬ (State.new 2 1 (all_tiles_types ex_rules_ud)).WF ∧
    (∀ w h : Nat, ∀ A : Finset Tile, ∀ row ∈
      (State.new w h A).possible_vals.inner, ∀ cell ∈ row, cell = A) ∧
    (∀ n : Nat, ∀ A : Finset Tile, (State.new n n A).WF) := by
  refine ⟨by decide, rfl, rfl, by decide, by decide, ?_, ?_⟩
  · intro w h A row hrow cell hcell
    have hr : row = List.replicate w A := List.eq_of_mem_replicate hrow
    rw [hr] at hcell
    exact List.eq_of_mem_replicate hcell
  · intro n A
    constructor
    · simp [State.new]
    · intro row hrow
      have hr : row = List.replicate n A := List.eq_of_mem_replicate hrow
      rw [hr]
      simp [State.new]

lemma get_image_from_possible_vals_eq (s : State) :
    get_image_from_possible_vals s =
      if ∀ x < s.width, ∀ y < s.height, (s.get x y).card = 1 then
        some ⟨s.width, s.height,
          (List.range s.width).map (fun x =>
            (List.range s.height).map (fun y => hash_set_first (s.get x y)))⟩
      else none := rfl

lemma decoded_image_pixel (s : State) {x y : Nat}
    (hx : x < s.width) (hy : y < s.height) :
    (Image.mk s.width s.height
        ((List.range s.width).map (fun x =>
          (List.range s.height).map (fun y =>
            hash_set_first (s.get x y))))).get_pixel x y =
      hash_set_first (s.get x y) := by
  show (((List.range s.width).map (fun x =>
      (List.range s.height).map (fun y =>
        hash_set_first (s.get x y)))).getD x []).getD y Tile.Red =
    hash_set_first (s.get x y)
  have h1 : ((List.range s.width).map (fun x =>
      (List.range s.height).map (fun y =>
        hash_set_first (s.get x y)))).getD x [] =
      (List.range s.height).map (fun y => hash_set_first (s.get x y)) := by
    rw [List.getD_eq_getElem _ _ (by simpa using hx)]
    rw [List.getElem_map, List.getElem_range]
  rw [h1]
  rw [List.getD_eq_getElem _ _ (by simpa using hy)]
  rw [List.getElem_map, List.getElem_range]

/-- **C7** (confirmed).  The decoder returns an image iff every cell's
possibility set has size exactly 1; the returned image has the wave's
dimensions and its pixel at each cell is that cell's unique element; the
wave is not mutated (the embedding is purely functional and the decoder
only reads the state). -/
theorem decoder_returns_iff_fully_collapsed (s : State) (hwf : s.WF) :
    ((∃ img, get_image_from_possible_vals s = some img) ↔
      ∀ x < s.width, ∀ y < s.height, (s.get x y).card = 1) ∧
    ∀ img, get_image_from_possible_vals s = some img →
      img.width = s.width ∧ img.height = s.height ∧
      ∀ x < s.width, ∀ y < s.height, ∀ t ∈ s.get x y,
        img.get_pixel x y = t := by
  rw [get_image_from_possible_vals_eq]
  by_cases hall : ∀ x < s.width, ∀ y < s.height, (s.get x y).card = 1
  · rw [if_pos hall]
    refine ⟨⟨fun _ => hall, fun _ => ⟨_, rfl⟩⟩, ?_⟩
    intro img himg
    have himg' : img = Image.mk s.width s.height
        ((List.range s.width).map (fun x =>
          (List.range s.height).map (fun y =>
            hash_set_first (s.get x y)))) := (Option.some.inj himg).symm
    subst himg'
    refine ⟨rfl, rfl, ?_⟩
    intro x hx y hy t ht
    rw [decoded_image_pixel s hx hy]
    obtain ⟨a, ha⟩ := Finset.card_eq_one.mp (hall x hx y hy)
    rw [ha] at ht ⊢
    rw [Finset.mem_singleton] at ht
    subst ht
    exact hash_set_first_singleton t
  · rw [if_neg hall]
    refine ⟨⟨?_, fun h => absurd h hall⟩, ?_⟩
    · rintro ⟨img, himg⟩
      cases himg
    · intro img himg
      cases himg

/-- Witness for C7 at the fully collapsed 2×1 wave `{Red} | {Green}`. -/
theorem decoder_returns_iff_fully_collapsed_witness :
    ex_state_2x1_done.WF ∧
      (((∃ img, get_image_from_possible_vals ex_state_2x1_done = some img) ↔
        ∀ x < ex_state_2x1_done.width, ∀ y < ex_state_2x1_done.height,
          (ex_state_2x1_done.get x y).card = 1) ∧
      ∀ img, get_image_from_possible_vals ex_state_2x1_done = some img →
        img.width = ex_state_2x1_done.width ∧
        img.height = ex_state_2x1_done.height ∧
        ∀ x < ex_state_2x1_done.width, ∀ y < ex_state_2x1_done.height,
          ∀ t ∈ ex_state_2x1_done.get x y, img.get_pixel x y = t) :=
  ⟨by decide, decoder_returns_iff_fully_collapsed ex_state_2x1_done
    (by decide)⟩

/-- **C8** (counterexample).  On the wave `{Red} | ∅` no cell has more
than one possibility, yet `get_lowest_entropy_tile` returns `Some (1, 0)`
(for every random draw, here drawn at index 0): the empty cell, of size 0,
is treated as the lowest-entropy candidate, refuting both the claimed
`None`-condition and the claimed `size > 1` guarantee on the returned
coordinate. -/
theorem lowest_entropy_empty_cell_counterexample :
    (∀ x < 2, ∀ y < 1, ¬ 1 < (ex_pv_with_empty.get x y).card) ∧
    ex_pv_with_empty.inner.length = 2 ∧
    (∀ row ∈ ex_pv_with_empty.inner, row.length = 1) ∧
    get_lowest_entropy_tile 0 ex_pv_with_empty = some (1, 0) ∧
    (ex_pv_with_empty.get 1 0).card = 0 := by decide

/-- **C8** (amended).  For every wave and random draw,
`get_lowest_entropy_tile` returns `None` iff every cell's set has size
*exactly 1* (not: no cell of size > 1 — empty cells count as entropy-0
candidates); and whenever it returns a coordinate, that cell's size is ≠ 1
and equals the minimum size over all cells of size ≠ 1, the coordinate
being drawn from the candidate list of all such minimisers. -/
theorem lowest_entropy_tile_characterization (r : Nat) (pv : PossibleVals) :
    (get_lowest_entropy_tile r pv = none ↔
      ∀ row ∈ pv.inner, ∀ t ∈ row, t.card = 1) ∧
    ∀ i j, get_lowest_entropy_tile r pv = some (i, j) →
      ∃ row, pv.inner[i]? = some row ∧ ∃ t, row[j]? = some t ∧
        t.card ≠ 1 ∧
        ∀ row' ∈ pv.inner, ∀ t' ∈ row', t'.card ≠ 1 → t.card ≤ t'.card :=
  ⟨get_lowest_entropy_tile_none_iff r pv,
    fun _ _ h => get_lowest_entropy_tile_some h⟩
